import Mathlib

/-!
Verification of `commit_manager.py` (ConfigManager, LicenseManager,
VersionManager, GitHookManager) against its specification.

Python strings are modelled as `List Char`; file systems as association
lists from names to contents; machine-level effects (git tag creation,
file writes) as explicit data returned by the modelled operations.
Python's `str.replace`, `re.match(r"v(\d+)\.(\d+)\.(\d+)", ...)` and
`re.sub(r"© (\d{4})(-\d{4})?", ...)` are embedded as executable functions;
`\d` is modelled as the ASCII digits recognised by `Char.isDigit`
(the inputs named by the claims are ASCII).  Recursions whose measure is
not structural use an explicit fuel argument (initialised to the input
length) so that every definition evaluates by kernel reduction.
-/

namespace CommitManager

/-- `occursIn s p = true` iff `p` occurs as a contiguous substring of `s`.
Models Python's `p in s`. -/
def occursIn (s p : List Char) : Bool :=
  p.isPrefixOf s ||
    match s with
    | [] => false
    | _ :: t => occursIn t p

/-- Substring occurrence as a proposition: `p` occurs inside `s`. -/
def Occ (s p : List Char) : Prop := ∃ x y, s = x ++ p ++ y

theorem isPrefixOf_iff_exists (p s : List Char) :
    p.isPrefixOf s = true ↔ ∃ t, s = p ++ t := by
  induction p generalizing s with
  | nil => simp [List.isPrefixOf]
  | cons a p ih =>
    cases s with
    | nil => simp [List.isPrefixOf]
    | cons b s =>
      simp only [List.isPrefixOf, Bool.and_eq_true, beq_iff_eq, ih]
      constructor
      · rintro ⟨rfl, t, rfl⟩
        exact ⟨t, rfl⟩
      · rintro ⟨t, h⟩
        cases h
        exact ⟨rfl, t, rfl⟩

theorem occursIn_iff_Occ (s p : List Char) : occursIn s p = true ↔ Occ s p := by
  induction s with
  | nil =>
    simp only [occursIn, Bool.or_false, isPrefixOf_iff_exists, Occ]
    constructor
    · rintro ⟨t, h⟩
      exact ⟨[], t, h⟩
    · rintro ⟨x, y, h⟩
      rw [List.nil_eq, List.append_assoc, List.append_eq_nil] at h
      exact ⟨y, by simp [h.1, h.2]⟩
  | cons c cs ih =>
    simp only [occursIn, Bool.or_eq_true, isPrefixOf_iff_exists, ih, Occ]
    constructor
    · rintro (⟨t, h⟩ | ⟨x, y, h⟩)
      · exact ⟨[], t, h⟩
      · exact ⟨c :: x, y, by simp [h]⟩
    · rintro ⟨x, y, h⟩
      cases x with
      | nil => exact Or.inl ⟨y, by simpa using h⟩
      | cons a x =>
        have h' : c = a ∧ cs = x ++ p ++ y := by simpa using h
        exact Or.inr ⟨x, y, h'.2⟩

theorem occursIn_eq_false_iff (s p : List Char) :
    occursIn s p = false ↔ ¬ Occ s p := by
  rw [← occursIn_iff_Occ]
  cases occursIn s p <;> simp

/-- Fuel-driven worker for `replaceAll`; the fuel dominates the length of
the remaining input, so the `0, s` fallback is never reached. -/
def replGo (p r : List Char) : Nat → List Char → List Char
  | _, [] => []
  | 0, s => s
  | fu + 1, c :: cs =>
    if p.isPrefixOf (c :: cs) then r ++ replGo p r fu ((c :: cs).drop p.length)
    else c :: replGo p r fu cs

/-- Python's `s.replace(p, r)`: replace every occurrence of `p` in `s` by
`r`, scanning left to right without rescanning replaced text.  (All
patterns used by the program are nonempty literals, so the empty-pattern
guard is never exercised.) -/
def replaceAll (p r s : List Char) : List Char :=
  if p = [] then s else replGo p r s.length s

theorem replGo_fuel (p r : List Char) (hp : p ≠ []) :
    ∀ fu fu' s, s.length ≤ fu → s.length ≤ fu' →
      replGo p r fu s = replGo p r fu' s := by
  intro fu
  induction fu with
  | zero =>
    intro fu' s hs _
    have : s = [] := List.eq_nil_of_length_eq_zero (Nat.le_zero.mp hs)
    subst this
    cases fu' <;> rfl
  | succ fu ih =>
    intro fu' s hs hs'
    cases s with
    | nil => cases fu' <;> rfl
    | cons c cs =>
      cases fu' with
      | zero => exact absurd hs' (by simp)
      | succ fu' =>
        simp only [replGo]
        by_cases hpre : p.isPrefixOf (c :: cs)
        · have hplen : 1 ≤ p.length := by
            cases p with
            | nil => exact absurd rfl hp
            | cons a as => simp
          have hd : ((c :: cs).drop p.length).length ≤ fu := by
            have := List.length_drop p.length (c :: cs)
            simp only [List.length_cons] at hs this
            omega
          have hd' : ((c :: cs).drop p.length).length ≤ fu' := by
            have := List.length_drop p.length (c :: cs)
            simp only [List.length_cons] at hs' this
            omega
          rw [if_pos hpre, if_pos hpre, ih fu' _ hd hd']
        · have h1 : cs.length ≤ fu := by simpa using hs
          have h2 : cs.length ≤ fu' := by simpa using hs'
          rw [if_neg hpre, if_neg hpre, ih fu' cs h1 h2]

theorem replaceAll_nil (p r : List Char) : replaceAll p r [] = [] := by
  by_cases hp : p = [] <;> simp [replaceAll, hp, replGo]

theorem replaceAll_pos (p r : List Char) (c : Char) (cs : List Char)
    (hp : p ≠ []) (hpre : p.isPrefixOf (c :: cs)) :
    replaceAll p r (c :: cs) = r ++ replaceAll p r ((c :: cs).drop p.length) := by
  have hplen : 1 ≤ p.length := by
    cases p with
    | nil => exact absurd rfl hp
    | cons a as => simp
  have hd : ((c :: cs).drop p.length).length ≤ cs.length := by
    have := List.length_drop p.length (c :: cs)
    simp only [List.length_cons] at this
    omega
  rw [replaceAll, if_neg hp, replaceAll, if_neg hp]
  simp only [List.length_cons, replGo, if_pos hpre]
  congr 1
  exact replGo_fuel p r hp _ _ _ hd le_rfl

theorem replaceAll_neg (p r : List Char) (c : Char) (cs : List Char)
    (hpre : ¬ p.isPrefixOf (c :: cs)) :
    replaceAll p r (c :: cs) = c :: replaceAll p r cs := by
  have hp : p ≠ [] := by
    intro h
    subst h
    simp [List.isPrefixOf] at hpre
  rw [replaceAll, if_neg hp, replaceAll, if_neg hp]
  simp only [List.length_cons, replGo, if_neg hpre]

theorem replaceAll_of_not_occ (p r s : List Char) (h : occursIn s p = false) :
    replaceAll p r s = s := by
  induction s with
  | nil => exact replaceAll_nil p r
  | cons c cs ih =>
    simp only [occursIn, Bool.or_eq_false_iff] at h
    rw [replaceAll_neg p r c cs (by simp [h.1]), ih h.2]

theorem exists_leftmost (p r : List Char) (hp : p ≠ []) :
    ∀ s, occursIn s p = true →
      ∃ a b, s = a ++ p ++ b ∧
        replaceAll p r s = a ++ r ++ replaceAll p r b ∧
        occursIn a p = false := by
  intro s
  induction s with
  | nil =>
    intro h
    rw [occursIn] at h
    rcases Bool.or_eq_true_iff.mp h with h1 | h1
    · rcases (isPrefixOf_iff_exists p []).mp h1 with ⟨t, ht⟩
      exact absurd ht.symm (by simp [hp])
    · simp at h1
  | cons c cs ih =>
    intro h
    by_cases hpre : p.isPrefixOf (c :: cs)
    · rcases (isPrefixOf_iff_exists p (c :: cs)).mp hpre with ⟨t, ht⟩
      refine ⟨[], t, by simpa using ht, ?_, ?_⟩
      · rw [replaceAll_pos p r c cs hp hpre]
        have hdrop : (c :: cs).drop p.length = t := by
          rw [ht, List.drop_append_of_le_length le_rfl]
          simp
        rw [hdrop]
        simp
      · rw [occursIn]
        have : p.isPrefixOf [] = false := by
          cases hq : p.isPrefixOf [] with
          | false => rfl
          | true =>
            rcases (isPrefixOf_iff_exists p []).mp hq with ⟨t, ht⟩
            exact absurd ht.symm (by simp [hp])
        simp [this]
    · have hcs : occursIn cs p = true := by
        rw [occursIn] at h
        rcases Bool.or_eq_true_iff.mp h with h1 | h1
        · exact absurd h1 hpre
        · exact h1
      rcases ih hcs with ⟨a, b, hs, heq, hano⟩
      refine ⟨c :: a, b, by simp [hs], ?_, ?_⟩
      · rw [replaceAll_neg p r c cs hpre, heq]
        simp
      · rw [occursIn]
        have hnp : p.isPrefixOf (c :: a) = false := by
          cases hq : p.isPrefixOf (c :: a) with
          | false => rfl
          | true =>
            rcases (isPrefixOf_iff_exists p (c :: a)).mp hq with ⟨t, ht⟩
            have hsplit : c :: cs = (c :: a) ++ (p ++ b) := by
              rw [hs]
              simp
            have : p.isPrefixOf (c :: cs) = true := by
              rw [isPrefixOf_iff_exists]
              exact ⟨t ++ (p ++ b), by rw [hsplit, ht]; simp⟩
            exact absurd this hpre
        simp [hnp, hano]

/-- The four ways an occurrence of `q` can overlap a block of replacement
text `r`: `q` inside `r`, `r` inside `q`, a strict tail-of-`q`/head-of-`r`
overlap, or a strict head-of-`q`/tail-of-`r` overlap. -/
def SpliceP (q r : List Char) : Prop :=
  (∃ x y, r = x ++ q ++ y) ∨ (∃ x y, q = x ++ r ++ y) ∨
  (∃ t u v, t ≠ [] ∧ u ≠ [] ∧ v ≠ [] ∧ q = t ++ u ∧ r = u ++ v) ∨
  (∃ t u v, t ≠ [] ∧ u ≠ [] ∧ v ≠ [] ∧ q = u ++ v ∧ r = t ++ u)

theorem splice_free {q r a c : List Char} (hs : ¬ SpliceP q r)
    (ha : ¬ Occ a q) (hc : ¬ Occ c q) : ¬ Occ (a ++ r ++ c) q := by
  rintro ⟨x, y, h⟩
  rw [List.append_assoc, List.append_assoc] at h
  rcases List.append_eq_append_iff.mp h with ⟨t, hx, h2⟩ | ⟨t, hax, h2⟩
  · -- x = a ++ t and r ++ c = t ++ (q ++ y)
    rcases List.append_eq_append_iff.mp h2 with ⟨u, ht, h3⟩ | ⟨u, hr, h3⟩
    · -- t = r ++ u and c = u ++ (q ++ y): occurrence inside c
      exact hc ⟨u, y, by rw [h3, List.append_assoc]⟩
    · -- r = t ++ u and q ++ y = u ++ c
      rcases List.append_eq_append_iff.mp h3 with ⟨v, hu, h4⟩ | ⟨v, hqv, h4⟩
      · -- u = q ++ v: q is inside r
        exact hs (Or.inl ⟨t, v, by rw [hr, hu, List.append_assoc]⟩)
      · -- q = u ++ v and c = v ++ y
        by_cases hu0 : u = []
        · subst hu0
          exact hc ⟨[], y, by rw [h4, hqv]; simp⟩
        · by_cases hv0 : v = []
          · subst hv0
            exact hs (Or.inl ⟨t, [], by rw [hr, hqv]; simp⟩)
          · by_cases ht0 : t = []
            · subst ht0
              exact hs (Or.inr (Or.inl ⟨[], v, by rw [hqv, hr]; simp⟩))
            · exact hs (Or.inr (Or.inr (Or.inr ⟨t, u, v, ht0, hu0, hv0, hqv, hr⟩)))
  · -- a = x ++ t and q ++ y = t ++ (r ++ c)
    rcases List.append_eq_append_iff.mp h2 with ⟨u, ht, h3⟩ | ⟨u, hq2, h3⟩
    · -- t = q ++ u: occurrence inside a
      exact ha ⟨x, u, by rw [hax, ht, List.append_assoc]⟩
    · -- q = t ++ u and r ++ c = u ++ y
      rcases List.append_eq_append_iff.mp h3 with ⟨v, hu, h4⟩ | ⟨v, hr, h4⟩
      · -- u = r ++ v: r is inside q
        exact hs (Or.inr (Or.inl ⟨t, v, by rw [hq2, hu, List.append_assoc]⟩))
      · -- r = u ++ v and y = v ++ c
        by_cases hu0 : u = []
        · subst hu0
          exact ha ⟨x, [], by rw [hax, hq2]; simp⟩
        · by_cases ht0 : t = []
          · subst ht0
            exact hs (Or.inl ⟨[], v, by rw [hr, hq2]; simp⟩)
          · by_cases hv0 : v = []
            · subst hv0
              exact hs (Or.inr (Or.inl ⟨t, [], by rw [hq2, hr]; simp⟩))
            · exact hs (Or.inr (Or.inr (Or.inl ⟨t, u, v, ht0, hu0, hv0, hq2, hr⟩)))

theorem spliceP_of_pat_nil (r : List Char) : SpliceP [] r :=
  Or.inl ⟨[], r, by simp⟩

theorem spliceP_of_rep_nil (q : List Char) : SpliceP q [] :=
  Or.inr (Or.inl ⟨q, [], by simp⟩)

/-- Replacing `p` by `r` eliminates all occurrences of `p`, provided no
occurrence of `p` can overlap an inserted copy of `r`. -/
theorem replaceAll_no_self_occ {p r : List Char} (hs : ¬ SpliceP p r) :
    ∀ s, ¬ Occ (replaceAll p r s) p := by
  have hp : p ≠ [] := fun h => hs (h ▸ spliceP_of_pat_nil r)
  have main : ∀ n s, s.length ≤ n → ¬ Occ (replaceAll p r s) p := by
    intro n
    induction n with
    | zero =>
      intro s hle
      have : s = [] := List.eq_nil_of_length_eq_zero (Nat.le_zero.mp hle)
      subst this
      rw [replaceAll_nil]
      rintro ⟨x, y, hxy⟩
      exact absurd hxy.symm (by simp [hp])
    | succ n ih =>
      intro s hle
      by_cases hocc : occursIn s p = true
      · rcases exists_leftmost p r hp s hocc with ⟨a, b, hsab, heq, hano⟩
        rw [heq]
        have hblen : b.length ≤ n := by
          have := congrArg List.length hsab
          simp only [List.length_append] at this
          have hplen : 1 ≤ p.length := by
            cases p with
            | nil => exact absurd rfl hp
            | cons u us => simp
          omega
        exact splice_free hs ((occursIn_eq_false_iff a p).mp hano) (ih b hblen)
      · rw [replaceAll_of_not_occ p r s (by simpa using hocc)]
        exact (occursIn_eq_false_iff s p).mp (by simpa using hocc)
  intro s
  exact main s.length s le_rfl

/-- Replacing `p` by `r` introduces no occurrence of a token `q` that was
absent, provided no occurrence of `q` can overlap an inserted copy of `r`. -/
theorem replaceAll_no_new_occ {p r q : List Char} (hp : p ≠ [])
    (hs : ¬ SpliceP q r) : ∀ s, ¬ Occ s q → ¬ Occ (replaceAll p r s) q := by
  have main : ∀ n s, s.length ≤ n → ¬ Occ s q → ¬ Occ (replaceAll p r s) q := by
    intro n
    induction n with
    | zero =>
      intro s hle hq
      have : s = [] := List.eq_nil_of_length_eq_zero (Nat.le_zero.mp hle)
      subst this
      rwa [replaceAll_nil]
    | succ n ih =>
      intro s hle hq
      by_cases hocc : occursIn s p = true
      · rcases exists_leftmost p r hp s hocc with ⟨a, b, hsab, heq, _⟩
        rw [heq]
        have hqa : ¬ Occ a q := by
          rintro ⟨x, y, hxy⟩
          exact hq ⟨x, y ++ p ++ b, by rw [hsab, hxy]; simp⟩
        have hqb : ¬ Occ b q := by
          rintro ⟨x, y, hxy⟩
          exact hq ⟨a ++ p ++ x, y, by rw [hsab, hxy]; simp⟩
        have hblen : b.length ≤ n := by
          have := congrArg List.length hsab
          simp only [List.length_append] at this
          have hplen : 1 ≤ p.length := by
            cases p with
            | nil => exact absurd rfl hp
            | cons u us => simp
          omega
        exact splice_free hs hqa (ih b hblen hqb)
      · rwa [replaceAll_of_not_occ p r s (by simpa using hocc)]
  intro s
  exact main s.length s le_rfl

/-- Executable check refuting `SpliceP`: used to discharge overlap-freedom
hypotheses on concrete replacement strings. -/
def spliceB (q r : List Char) : Bool :=
  occursIn r q || occursIn q r ||
  (List.range q.length).any (fun m =>
    decide (1 ≤ m) && decide (m < r.length) &&
      (q.drop (q.length - m) == r.take m)) ||
  (List.range q.length).any (fun m =>
    decide (1 ≤ m) && decide (m < r.length) &&
      (q.take m == r.drop (r.length - m)))

theorem not_spliceP_of_spliceB_eq_false {q r : List Char}
    (h : spliceB q r = false) : ¬ SpliceP q r := by
  rw [spliceB] at h
  simp only [Bool.or_eq_false_iff, List.any_eq_false] at h
  obtain ⟨⟨⟨h1, h2⟩, h3⟩, h4⟩ := h
  rintro (hc | hc | hc | hc)
  · exact absurd ((occursIn_iff_Occ r q).mpr hc) (by simp [h1])
  · exact absurd ((occursIn_iff_Occ q r).mpr hc) (by simp [h2])
  · obtain ⟨t, u, v, ht0, hu0, hv0, hq, hr⟩ := hc
    have hm := h3 u.length
    have hqlen : q.length = t.length + u.length := by rw [hq]; simp
    have hrlen : r.length = u.length + v.length := by rw [hr]; simp
    have hmem : u.length ∈ List.range q.length := by
      rw [List.mem_range]
      have := List.length_pos.mpr ht0
      omega
    have hval : q.drop (q.length - u.length) = r.take u.length := by
      have hqd : q.drop (q.length - u.length) = u := by
        have : q.length - u.length = t.length := by omega
        rw [this, hq, List.drop_left]
      have hrt : r.take u.length = u := by
        rw [hr, List.take_left]
      rw [hqd, hrt]
    refine hm hmem ?_
    simp only [Bool.and_eq_true, decide_eq_true_eq, beq_iff_eq]
    refine ⟨⟨?_, ?_⟩, hval⟩
    · have := List.length_pos.mpr hu0
      omega
    · have := List.length_pos.mpr hv0
      omega
  · obtain ⟨t, u, v, ht0, hu0, hv0, hq, hr⟩ := hc
    have hm := h4 u.length
    have hqlen : q.length = u.length + v.length := by rw [hq]; simp
    have hrlen : r.length = t.length + u.length := by rw [hr]; simp
    have hmem : u.length ∈ List.range q.length := by
      rw [List.mem_range]
      have := List.length_pos.mpr hv0
      omega
    have hval : q.take u.length = r.drop (r.length - u.length) := by
      have hqt : q.take u.length = u := by rw [hq, List.take_left]
      have hrd : r.drop (r.length - u.length) = u := by
        have : r.length - u.length = t.length := by omega
        rw [this, hr, List.drop_left]
      rw [hqt, hrd]
    refine hm hmem ?_
    simp only [Bool.and_eq_true, decide_eq_true_eq, beq_iff_eq]
    refine ⟨⟨?_, ?_⟩, hval⟩
    · have := List.length_pos.mpr hu0
      omega
    · have := List.length_pos.mpr ht0
      omega

theorem not_spliceP_of_disjoint {q r : List Char} (hq : q ≠ []) (hr : r ≠ [])
    (hd : ∀ c ∈ q, c ∉ r) : ¬ SpliceP q r := by
  rintro (⟨x, y, h⟩ | ⟨x, y, h⟩ | ⟨t, u, v, _, hu0, _, h1, h2⟩ |
    ⟨t, u, v, _, hu0, _, h1, h2⟩)
  · obtain ⟨c, hc⟩ := List.exists_mem_of_ne_nil q hq
    exact hd c hc (by rw [h]; simp [hc])
  · obtain ⟨c, hc⟩ := List.exists_mem_of_ne_nil r hr
    exact hd c (by rw [h]; simp [hc]) hc
  · obtain ⟨c, hc⟩ := List.exists_mem_of_ne_nil u hu0
    exact hd c (by rw [h1]; simp [hc]) (by rw [h2]; simp [hc])
  · obtain ⟨c, hc⟩ := List.exists_mem_of_ne_nil u hu0
    exact hd c (by rw [h1]; simp [hc]) (by rw [h2]; simp [hc])

/-- Fuel-driven decimal rendering of a natural number, least significant
digit last; the fuel dominates the number itself. -/
def digitsGo : Nat → Nat → List Char
  | 0, n => [Nat.digitChar n]
  | fu + 1, n =>
    if n < 10 then [Nat.digitChar n]
    else digitsGo fu (n / 10) ++ [Nat.digitChar (n % 10)]

/-- Decimal digit string of a natural number, as produced by Python's
`str` on a non-negative `int`. -/
def natDigits (n : Nat) : List Char := digitsGo n n

theorem digitsGo_fuel : ∀ fu fu' n, n ≤ fu → n ≤ fu' →
    digitsGo fu n = digitsGo fu' n := by
  intro fu
  induction fu with
  | zero =>
    intro fu' n hn _
    have hn0 : n = 0 := Nat.le_zero.mp hn
    subst hn0
    cases fu' with
    | zero => rfl
    | succ fu' => simp [digitsGo]
  | succ fu ih =>
    intro fu' n hn hn'
    by_cases h10 : n < 10
    · cases fu' with
      | zero =>
        have : n = 0 := Nat.le_zero.mp hn'
        subst this
        simp [digitsGo]
      | succ fu' => simp [digitsGo, h10]
    · have hfu' : ∃ k, fu' = k + 1 := by
        cases fu' with
        | zero => exact absurd (Nat.le_zero.mp hn') (by omega)
        | succ k => exact ⟨k, rfl⟩
      obtain ⟨k, rfl⟩ := hfu'
      have hdiv : n / 10 ≤ fu := by
        have : n / 10 < n := Nat.div_lt_self (by omega) (by omega)
        omega
      have hdiv' : n / 10 ≤ k := by
        have : n / 10 < n := Nat.div_lt_self (by omega) (by omega)
        omega
      simp only [digitsGo, h10, if_false]
      rw [ih k (n / 10) hdiv hdiv']

theorem natDigits_unfold (n : Nat) :
    natDigits n =
      if n < 10 then [Nat.digitChar n]
      else natDigits (n / 10) ++ [Nat.digitChar (n % 10)] := by
  by_cases h10 : n < 10
  · rw [if_pos h10, natDigits]
    cases n with
    | zero => rfl
    | succ k => simp [digitsGo, h10]
  · rw [if_neg h10]
    obtain ⟨k, hk⟩ : ∃ k, n = k + 1 := ⟨n - 1, by omega⟩
    subst hk
    simp only [natDigits, digitsGo, if_neg h10]
    congr 1
    have hdiv : (k + 1) / 10 < k + 1 := Nat.div_lt_self (by omega) (by omega)
    exact digitsGo_fuel k ((k + 1) / 10) ((k + 1) / 10) (by omega) le_rfl

/-- The ten ASCII digit characters. -/
def digitChars : List Char := ['0', '1', '2', '3', '4', '5', '6', '7', '8', '9']

theorem mem_digitChars_of_natDigits : ∀ n, ∀ c ∈ natDigits n, c ∈ digitChars := by
  intro n
  induction n using Nat.strong_induction_on with
  | _ n ih =>
    intro c hc
    rw [natDigits_unfold] at hc
    have hdig : ∀ d, d < 10 → Nat.digitChar d ∈ digitChars := by decide
    by_cases h10 : n < 10
    · rw [if_pos h10] at hc
      simp only [List.mem_singleton] at hc
      subst hc
      exact hdig n h10
    · rw [if_neg h10] at hc
      rcases List.mem_append.mp hc with h | h
      · exact ih (n / 10) (Nat.div_lt_self (by omega) (by omega)) c h
      · simp only [List.mem_singleton] at h
        subst h
        exact hdig (n % 10) (Nat.mod_lt _ (by omega))

theorem natDigits_ne_nil (n : Nat) : natDigits n ≠ [] := by
  rw [natDigits_unfold]
  by_cases h10 : n < 10
  · simp [h10]
  · simp [h10]

/-- Python's `str` on an `int` (decimal form, `-` sign for negatives). -/
def intStr (i : Int) : List Char :=
  if i < 0 then '-' :: natDigits (-i).toNat else natDigits i.toNat

theorem intStr_ne_nil (i : Int) : intStr i ≠ [] := by
  rw [intStr]
  by_cases h : i < 0
  · simp [h]
  · simp [h, natDigits_ne_nil]

theorem mem_intStr (i : Int) : ∀ c ∈ intStr i, c = '-' ∨ c ∈ digitChars := by
  intro c hc
  rw [intStr] at hc
  by_cases h : i < 0
  · rw [if_pos h] at hc
    rcases List.mem_cons.mp hc with h1 | h1
    · exact Or.inl h1
    · exact Or.inr (mem_digitChars_of_natDigits _ c h1)
  · rw [if_neg h] at hc
    exact Or.inr (mem_digitChars_of_natDigits _ c hc)

/-- Numeric value of a list of ASCII digit characters, as computed by
Python's `int` on the corresponding string. -/
def digitsVal (l : List Char) : Nat :=
  l.foldl (fun a c => 10 * a + (c.toNat - 48)) 0

theorem digitsVal_append_digit (l : List Char) (c : Char) :
    digitsVal (l ++ [c]) = 10 * digitsVal l + (c.toNat - 48) := by
  rw [digitsVal, List.foldl_append]
  rfl

theorem digitsVal_natDigits : ∀ n, digitsVal (natDigits n) = n := by
  intro n
  induction n using Nat.strong_induction_on with
  | _ n ih =>
    rw [natDigits_unfold]
    have hbase : ∀ d, d < 10 → digitsVal [Nat.digitChar d] = d := by decide
    have hchar : ∀ d, d < 10 → (Nat.digitChar d).toNat - 48 = d := by decide
    by_cases h10 : n < 10
    · rw [if_pos h10]
      exact hbase n h10
    · rw [if_neg h10, digitsVal_append_digit,
        ih (n / 10) (Nat.div_lt_self (by omega) (by omega)),
        hchar (n % 10) (Nat.mod_lt _ (by omega))]
      omega

/-- The literal year placeholder token of `ConfigManager`. -/
def yearTok : List Char := "YEAR_PLACEHOLDER".data

/-- The literal name placeholder token of `ConfigManager`. -/
def nameTok : List Char := "NAME_PLACEHOLDER".data

theorem yearTok_ne_nil : yearTok ≠ [] := by decide

theorem nameTok_ne_nil : nameTok ≠ [] := by decide

theorem not_spliceP_yearTok_intStr (i : Int) : ¬ SpliceP yearTok (intStr i) := by
  refine not_spliceP_of_disjoint yearTok_ne_nil (intStr_ne_nil i) ?_
  intro c hc hmem
  have hokay : ∀ c ∈ yearTok, ¬ (c = '-' ∨ c ∈ digitChars) := by decide
  exact hokay c hc (mem_intStr i c hmem)

/-- `str.replace` with the year token, then with the name token, leaves no
occurrence of either token, provided the name text cannot splice with
either token. -/
theorem leaf_no_tokens (i : Int) (n : List Char)
    (h1 : ¬ SpliceP nameTok n) (h2 : ¬ SpliceP yearTok n) (s : List Char) :
    occursIn (replaceAll nameTok n (replaceAll yearTok (intStr i) s)) yearTok
        = false ∧
    occursIn (replaceAll nameTok n (replaceAll yearTok (intStr i) s)) nameTok
        = false := by
  constructor
  · rw [occursIn_eq_false_iff]
    exact replaceAll_no_new_occ nameTok_ne_nil h2 _
      (replaceAll_no_self_occ (not_spliceP_yearTok_intStr i) s)
  · rw [occursIn_eq_false_iff]
    exact replaceAll_no_self_occ h1 _

/-! TOML configuration values (`ConfigManager`).  A value is a string, a
non-string scalar (integer, boolean, date), an ordered sequence, or a
mapping with ordered string keys — the shapes `tomllib.load` produces and
`ConfigManager._replace` dispatches on. -/

mutual
inductive CVal where
  | vStr : List Char → CVal
  | vInt : Int → CVal
  | vBool : Bool → CVal
  | vDate : Nat → Nat → Nat → CVal
  | vList : CValList → CVal
  | vDict : CValDict → CVal
inductive CValList where
  | nil : CValList
  | cons : CVal → CValList → CValList
inductive CValDict where
  | dnil : CValDict
  | dcons : String → CVal → CValDict → CValDict
end

mutual
/-- `ConfigManager._replace`: strings get the year token replaced by the
decimal year and then the name token replaced by the configured name;
mappings and sequences recurse; all other values are returned unchanged. -/
def replaceVal (i : Int) (n : List Char) : CVal → CVal
  | CVal.vStr s =>
      CVal.vStr (replaceAll nameTok n (replaceAll yearTok (intStr i) s))
  | CVal.vList l => CVal.vList (replaceListVals i n l)
  | CVal.vDict d => CVal.vDict (replacePairs i n d)
  | v => v
/-- `ConfigManager._replace` on each element of a sequence. -/
def replaceListVals (i : Int) (n : List Char) : CValList → CValList
  | CValList.nil => CValList.nil
  | CValList.cons v t => CValList.cons (replaceVal i n v) (replaceListVals i n t)
/-- `ConfigManager._replace` on each value of a mapping, keys unchanged. -/
def replacePairs (i : Int) (n : List Char) : CValDict → CValDict
  | CValDict.dnil => CValDict.dnil
  | CValDict.dcons k v t =>
      CValDict.dcons k (replaceVal i n v) (replacePairs i n t)
end

/-- `ConfigManager.replace_placeholders`: applies `_replace` to every value
of the top-level mapping, keys unchanged. -/
def replacePlaceholders (i : Int) (n : List Char) (cfg : CValDict) : CValDict :=
  replacePairs i n cfg

mutual
/-- Structure skeleton of a value: every string leaf is collapsed to the
empty string, everything else (keys, order, non-string leaves) is kept. -/
def stripVal : CVal → CVal
  | CVal.vStr _ => CVal.vStr []
  | CVal.vList l => CVal.vList (stripL l)
  | CVal.vDict d => CVal.vDict (stripD d)
  | v => v
/-- Structure skeleton of a sequence. -/
def stripL : CValList → CValList
  | CValList.nil => CValList.nil
  | CValList.cons v t => CValList.cons (stripVal v) (stripL t)
/-- Structure skeleton of a mapping. -/
def stripD : CValDict → CValDict
  | CValDict.dnil => CValDict.dnil
  | CValDict.dcons k v t => CValDict.dcons k (stripVal v) (stripD t)
end

mutual
/-- `true` iff no string leaf of the value contains either placeholder
token. -/
def noTokVal : CVal → Bool
  | CVal.vStr s => !occursIn s yearTok && !occursIn s nameTok
  | CVal.vList l => noTokL l
  | CVal.vDict d => noTokD d
  | _ => true
/-- `noTokVal` over a sequence. -/
def noTokL : CValList → Bool
  | CValList.nil => true
  | CValList.cons v t => noTokVal v && noTokL t
/-- `noTokVal` over a mapping. -/
def noTokD : CValDict → Bool
  | CValDict.dnil => true
  | CValDict.dcons _ v t => noTokVal v && noTokD t
end

mutual
theorem stripVal_replaceVal (i : Int) (n : List Char) :
    ∀ v, stripVal (replaceVal i n v) = stripVal v
  | CVal.vStr _ => rfl
  | CVal.vInt _ => rfl
  | CVal.vBool _ => rfl
  | CVal.vDate _ _ _ => rfl
  | CVal.vList l => by
      simp only [replaceVal, stripVal]
      rw [stripL_replaceListVals i n l]
  | CVal.vDict d => by
      simp only [replaceVal, stripVal]
      rw [stripD_replacePairs i n d]
theorem stripL_replaceListVals (i : Int) (n : List Char) :
    ∀ l, stripL (replaceListVals i n l) = stripL l
  | CValList.nil => rfl
  | CValList.cons v t => by
      simp only [replaceListVals, stripL]
      rw [stripVal_replaceVal i n v, stripL_replaceListVals i n t]
theorem stripD_replacePairs (i : Int) (n : List Char) :
    ∀ d, stripD (replacePairs i n d) = stripD d
  | CValDict.dnil => rfl
  | CValDict.dcons k v t => by
      simp only [replacePairs, stripD]
      rw [stripVal_replaceVal i n v, stripD_replacePairs i n t]
end

mutual
theorem noTokVal_replaceVal (i : Int) (n : List Char)
    (h1 : ¬ SpliceP nameTok n) (h2 : ¬ SpliceP yearTok n) :
    ∀ v, noTokVal (replaceVal i n v) = true
  | CVal.vStr s => by
      obtain ⟨hy, hn⟩ := leaf_no_tokens i n h1 h2 s
      simp only [replaceVal, noTokVal, hy, hn]
      rfl
  | CVal.vInt _ => rfl
  | CVal.vBool _ => rfl
  | CVal.vDate _ _ _ => rfl
  | CVal.vList l => noTokL_replaceListVals i n h1 h2 l
  | CVal.vDict d => noTokD_replacePairs i n h1 h2 d
theorem noTokL_replaceListVals (i : Int) (n : List Char)
    (h1 : ¬ SpliceP nameTok n) (h2 : ¬ SpliceP yearTok n) :
    ∀ l, noTokL (replaceListVals i n l) = true
  | CValList.nil => rfl
  | CValList.cons v t => by
      simp only [replaceListVals, noTokL, Bool.and_eq_true]
      exact ⟨noTokVal_replaceVal i n h1 h2 v, noTokL_replaceListVals i n h1 h2 t⟩
theorem noTokD_replacePairs (i : Int) (n : List Char)
    (h1 : ¬ SpliceP nameTok n) (h2 : ¬ SpliceP yearTok n) :
    ∀ d, noTokD (replacePairs i n d) = true
  | CValDict.dnil => rfl
  | CValDict.dcons k v t => by
      simp only [replacePairs, noTokD, Bool.and_eq_true]
      exact ⟨noTokVal_replaceVal i n h1 h2 v, noTokD_replacePairs i n h1 h2 t⟩
end

/-! `VersionManager`.  Tags are strings; tag creation by `git tag` is
modelled as the second component of the result: `bumpVersion` returns the
value `bump_version` returns together with the tag it creates, if any. -/

/-- Models `re.match(r"v(\d+)\.(\d+)\.(\d+)", latest)`: anchored at the
start only (a prefix match), with each `\d+` greedy — and since `.` is not
a digit, greedy prefix capture coincides with the regex semantics.  Returns
the three captured values and the unconsumed suffix. -/
def parseVer : List Char → Option (Nat × Nat × Nat × List Char)
  | 'v' :: r =>
    let d1 := r.takeWhile Char.isDigit
    if d1.isEmpty then none else
    match r.dropWhile Char.isDigit with
    | '.' :: r2 =>
      let d2 := r2.takeWhile Char.isDigit
      if d2.isEmpty then none else
      match r2.dropWhile Char.isDigit with
      | '.' :: r3 =>
        let d3 := r3.takeWhile Char.isDigit
        if d3.isEmpty then none else
        some (digitsVal d1, digitsVal d2, digitsVal d3, r3.dropWhile Char.isDigit)
      | _ => none
    | _ => none
  | _ => none

/-- The f-string `f"v{a}.{b}.{c}"` on natural numbers. -/
def vTag (a b c : Nat) : List Char :=
  'v' :: (natDigits a ++ '.' :: (natDigits b ++ '.' :: natDigits c))

/-- The `bump_type in {"major", "minor", "patch"}` membership test. -/
def validBump (b : String) : Bool :=
  b == "major" || b == "minor" || b == "patch"

/-- `VersionManager.bump_version`.  First component: the returned string;
second component: the tag handed to `git tag`, or `none` when the method
aborts without creating one. -/
def bumpVersion (latest : List Char) (bump : String) :
    List Char × Option (List Char) :=
  if validBump bump then
    match parseVer latest with
    | some (a, b, c, _) =>
      let nv : List Char :=
        if bump == "major" then vTag (a + 1) 0 0
        else if bump == "minor" then vTag a (b + 1) 0
        else vTag a b (c + 1)
      (nv, some nv)
    | none => (latest, none)
  else (latest, none)

/-- Modelled from the spec: "the latest tag matches the required
vMAJOR.MINOR.PATCH numeric pattern" read as the whole tag having that
shape (nonempty digit runs, nothing after the patch component). -/
def matchesSemVerFull : List Char → Bool
  | 'v' :: r =>
    let d1 := r.takeWhile Char.isDigit
    match r.dropWhile Char.isDigit with
    | '.' :: r2 =>
      let d2 := r2.takeWhile Char.isDigit
      match r2.dropWhile Char.isDigit with
      | '.' :: r3 =>
        !d1.isEmpty && !d2.isEmpty && !(r3.takeWhile Char.isDigit).isEmpty &&
          (r3.dropWhile Char.isDigit).isEmpty
      | _ => false
    | _ => false
  | _ => false

theorem takeWhile_all_digits (l : List Char) (h : ∀ c ∈ l, c.isDigit = true) :
    l.takeWhile Char.isDigit = l ∧ l.dropWhile Char.isDigit = [] := by
  induction l with
  | nil => simp
  | cons c t ih =>
    have hc : c.isDigit = true := h c (by simp)
    have ht := ih (fun d hd => h d (by simp [hd]))
    rw [List.takeWhile_cons, List.dropWhile_cons]
    simp [hc, ht.1, ht.2]

theorem takeWhile_digits_append (ds rest : List Char)
    (h : ∀ c ∈ ds, c.isDigit = true) (c0 : Char) (h0 : c0.isDigit = false) :
    (ds ++ c0 :: rest).takeWhile Char.isDigit = ds ∧
    (ds ++ c0 :: rest).dropWhile Char.isDigit = c0 :: rest := by
  induction ds with
  | nil =>
    rw [List.nil_append, List.takeWhile_cons, List.dropWhile_cons]
    simp [h0]
  | cons c t ih =>
    have hc : c.isDigit = true := h c (by simp)
    have ht := ih (fun d hd => h d (by simp [hd]))
    rw [List.cons_append, List.takeWhile_cons, List.dropWhile_cons]
    simp [hc, ht.1, ht.2]

/-- The concatenated literal `"v" ++ ds1 ++ "." ++ ds2 ++ "." ++ ds3`. -/
def tagOf (ds1 ds2 ds3 : List Char) : List Char :=
  'v' :: (ds1 ++ '.' :: (ds2 ++ '.' :: ds3))

theorem parseVer_tagOf (ds1 ds2 ds3 : List Char)
    (h1 : ds1 ≠ []) (h2 : ds2 ≠ []) (h3 : ds3 ≠ [])
    (hd1 : ∀ c ∈ ds1, c.isDigit = true) (hd2 : ∀ c ∈ ds2, c.isDigit = true)
    (hd3 : ∀ c ∈ ds3, c.isDigit = true) :
    parseVer (tagOf ds1 ds2 ds3) =
      some (digitsVal ds1, digitsVal ds2, digitsVal ds3, []) := by
  have hdot : ('.' : Char).isDigit = false := by decide
  obtain ⟨ht1, hdr1⟩ := takeWhile_digits_append ds1 (ds2 ++ '.' :: ds3) hd1 '.' hdot
  obtain ⟨ht2, hdr2⟩ := takeWhile_digits_append ds2 ds3 hd2 '.' hdot
  obtain ⟨ht3, hdr3⟩ := takeWhile_all_digits ds3 hd3
  rw [tagOf, parseVer]
  simp only [ht1, hdr1, ht2, hdr2, ht3, hdr3]
  simp [List.isEmpty_iff, h1, h2, h3]

/-! `LicenseManager`.  File contents are strings; the per-file header step
and the `re.sub`-based copyright-year rewriting are modelled below, and
the directory walk is modelled over an association-list file system. -/

/-- The per-file effect of the header loop in `apply_files_and_headers`:
if the `script` text already occurs in the file, leave it unchanged,
otherwise prepend it followed by a newline (`prepend_to_file`). -/
def applyHeader (hdr content : List Char) : List Char :=
  if occursIn content hdr then content else hdr ++ '\n' :: content

/-- The optional group `(-\d{4})?` of the copyright pattern: a dash
followed by exactly four digits; returns the four digits and the rest. -/
def dash4 : List Char → Option (List Char × List Char)
  | c0 :: e :: f :: g :: h :: r =>
    if c0 = '-' ∧ e.isDigit = true ∧ f.isDigit = true ∧ g.isDigit = true ∧
        h.isDigit = true then
      some ([e, f, g, h], r)
    else none
  | _ => none

/-- One attempt of `re.sub(r"© (\d{4})(-\d{4})?", ...)` at the head of the
text: on success, the four captured year digits, the optional second group,
and the text after the match. -/
def tryMatch : List Char → Option (List Char × Option (List Char) × List Char)
  | c0 :: c1 :: a :: b :: c :: d :: r =>
    if c0 = '©' ∧ c1 = ' ' ∧ a.isDigit = true ∧ b.isDigit = true ∧
        c.isDigit = true ∧ d.isDigit = true then
      match dash4 r with
      | some (y2, r2) => some ([a, b, c, d], some y2, r2)
      | none => some ([a, b, c, d], none, r)
    else none
  | _ => none

/-- The replacement lambda of `update_copyright_year`: if the leading
captured year is strictly below the current year, produce
`© {group1}-{current_year}`, otherwise reproduce the whole match. -/
def repl (cur : Int) (y1 : List Char) (o : Option (List Char)) : List Char :=
  if (digitsVal y1 : Int) < cur then '©' :: ' ' :: (y1 ++ '-' :: intStr cur)
  else '©' :: ' ' :: (y1 ++ (match o with | some y2 => '-' :: y2 | none => []))

/-- Fuel-driven scanner of `re.sub`: try a match at every position, left to
right, emitting replacements and skipping past each match. -/
def ucGo (cur : Int) : Nat → List Char → List Char
  | _, [] => []
  | 0, s => s
  | fu + 1, c :: cs =>
    match tryMatch (c :: cs) with
    | some (y1, o, rest) => repl cur y1 o ++ ucGo cur fu rest
    | none => c :: ucGo cur fu cs

/-- `LicenseManager.update_copyright_year`. -/
def updateCopyrightYear (cur : Int) (s : List Char) : List Char :=
  ucGo cur s.length s

/-- A directory as a mapping from file names to contents (Python reads and
rewrites whole files by name; `pathlib.Path.glob` order does not matter
because each file is transformed independently). -/
structure FS where
  files : List (List Char × List Char)

/-- `Path.read_text`, as `none` when the file does not exist. -/
def FS.read (fs : FS) (n : List Char) : Option (List Char) :=
  List.lookup n fs.files

/-- Association-list update used by `FS.write`. -/
def writePairs (n c : List Char) :
    List (List Char × List Char) → List (List Char × List Char)
  | [] => [(n, c)]
  | (k, v) :: t => if k == n then (k, c) :: t else (k, v) :: writePairs n c t

/-- `Path.write_text`: create the file or overwrite its content. -/
def FS.write (fs : FS) (n c : List Char) : FS :=
  ⟨writePairs n c fs.files⟩

/-- `Path.exists`. -/
def FS.existsFile (fs : FS) (n : List Char) : Bool :=
  (fs.read n).isSome

/-- File names matched by `target_dir.glob("*.py")`. -/
def isPyName (n : List Char) : Bool :=
  List.isSuffixOf ".py".data n

/-- `LICENSE.md`. -/
def licenseName : List Char := "LICENSE.md".data

/-- `INTENT.md`. -/
def intentName : List Char := "INTENT.md".data

/-- A configuration section as consumed by `LicenseManager`: the three
optional text blocks (`config.get` with default `""` models an absent key
as `none`, and `"intent" in self.config` as `Option.isSome`). -/
structure CfgSection where
  script : Option (List Char)
  license : Option (List Char)
  intent : Option (List Char)

/-- The empty section (`get_section` of a missing name returns `{}`). -/
def CfgSection.emptySec : CfgSection := ⟨none, none, none⟩

/-- The `for py_file in target_dir.glob("*.py")` loop of
`apply_files_and_headers`: prepend the `script` header (followed by a
newline) to every `*.py` file whose text does not already contain it. -/
def headerPass (sec : CfgSection) (fs : FS) : FS :=
  ⟨fs.files.map (fun kv =>
    if isPyName kv.1 then (kv.1, applyHeader (sec.script.getD []) kv.2) else kv)⟩

/-- The LICENSE.md block of `apply_files_and_headers`: update the
copyright year in place when the file exists, otherwise create it with the
configured `license` text (`config.get("license", "")`). -/
def licensePass (sec : CfgSection) (cur : Int) (fs : FS) : FS :=
  match fs.read licenseName with
  | some content => fs.write licenseName (updateCopyrightYear cur content)
  | none => fs.write licenseName (sec.license.getD [])

/-- The INTENT.md block of `apply_files_and_headers`: only run when the
`intent` key is present; then the same create-or-update-year policy. -/
def intentPass (sec : CfgSection) (cur : Int) (fs : FS) : FS :=
  match sec.intent with
  | some icontent =>
    match fs.read intentName with
    | some content => fs.write intentName (updateCopyrightYear cur content)
    | none => fs.write intentName icontent
  | none => fs

/-- `LicenseManager.apply_files_and_headers`: the three blocks in the
order the method executes them. -/
def applyFilesAndHeaders (sec : CfgSection) (cur : Int) (fs : FS) : FS :=
  intentPass sec cur (licensePass sec cur (headerPass sec fs))

/-! `GitHookManager`. -/

/-- The two named sections of the loaded configuration that
`setup_license_manager` can request via `get_section`. -/
structure HookConfig where
  personal : CfgSection
  work : CfgSection

/-- `ConfigManager.get_section` restricted to the names the hook uses. -/
def getSection (cfg : HookConfig) (s : String) : CfgSection :=
  if s = "personal" then cfg.personal
  else if s = "work" then cfg.work
  else CfgSection.emptySec

/-- `GitHookManager.decide_project_type` on the first (lower-cased)
interactive answer: `"p"` maps to `"personal"`, `"w"` to `"work"`; any
other answer reprompts, modelled as `none` (no decision yet). -/
def decideProjectType (answer : String) : Option String :=
  if answer = "p" then some "personal"
  else if answer = "w" then some "work"
  else none

/-- `GitHookManager.check_existing_files`, verbatim: note that it compares
`project_type` against the single-letter strings `"w"` and `"p"`. -/
def checkExistingFiles (pt : String) (fs : FS) : Bool :=
  (pt == "w" && !(fs.existsFile licenseName && fs.existsFile intentName)) ||
  (pt == "p" && !(fs.existsFile licenseName))

/-- The section name chosen by `setup_license_manager`:
`"personal" if project_type == "p" else "work"`. -/
def sectionFor (pt : String) : String :=
  if pt = "p" then "personal" else "work"

/-- `GitHookManager.run` given the first valid interactive answer: decide
the project type, check for missing artifacts, and if any are missing
apply the license manager for the chosen section and then request a
`"patch"` version bump (the boolean records that the bump was requested).
An invalid answer never leaves the prompt loop, modelled as `none`. -/
def run (cfg : HookConfig) (cur : Int) (answer : String) (fs : FS) :
    Option (FS × Bool) :=
  (decideProjectType answer).map (fun pt =>
    if checkExistingFiles pt fs then
      (applyFilesAndHeaders (getSection cfg (sectionFor pt)) cur fs, true)
    else (fs, false))

theorem dash4_none_head (c0 : Char) (hc : c0 ≠ '-') (u : List Char) :
    dash4 (c0 :: u) = none := by
  rcases u with _ | ⟨e, _ | ⟨f, _ | ⟨g, _ | ⟨h, r⟩⟩⟩⟩ <;> simp [dash4, hc]

theorem tryMatch_none_head (c0 : Char) (hc : c0 ≠ '©') (u : List Char) :
    tryMatch (c0 :: u) = none := by
  rcases u with _ | ⟨c1, _ | ⟨a, _ | ⟨b, _ | ⟨c, _ | ⟨d, r⟩⟩⟩⟩⟩ <;>
    simp [tryMatch, hc]

theorem dash4_some_inv {r y2 r2} (hm : dash4 r = some (y2, r2)) :
    ∃ e f g h2, y2 = [e, f, g, h2] ∧ e.isDigit = true ∧ f.isDigit = true ∧
      g.isDigit = true ∧ h2.isDigit = true ∧ r = '-' :: e :: f :: g :: h2 :: r2 := by
  rcases r with _ | ⟨c0, _ | ⟨e, _ | ⟨f, _ | ⟨g, _ | ⟨h, rr⟩⟩⟩⟩⟩ <;>
    simp only [dash4] at hm
  · exact absurd hm (by simp)
  · exact absurd hm (by simp)
  · exact absurd hm (by simp)
  · exact absurd hm (by simp)
  · exact absurd hm (by simp)
  · by_cases hcond : c0 = '-' ∧ e.isDigit = true ∧ f.isDigit = true ∧
        g.isDigit = true ∧ h.isDigit = true
    · rw [if_pos hcond] at hm
      obtain ⟨hy2, hr2⟩ : [e, f, g, h] = y2 ∧ rr = r2 := by
        constructor
        · exact congrArg Prod.fst (Option.some.inj hm)
        · exact congrArg Prod.snd (Option.some.inj hm)
      obtain ⟨hc0, h1, h2x, h3, h4⟩ := hcond
      exact ⟨e, f, g, h, hy2.symm, h1, h2x, h3, h4, by rw [hc0, hr2]⟩
    · rw [if_neg hcond] at hm
      exact absurd hm (by simp)

theorem tryMatch_some_inv {s : List Char} {y1 : List Char}
    {o : Option (List Char)} {rest : List Char}
    (hm : tryMatch s = some (y1, o, rest)) :
    ∃ a b c d, y1 = [a, b, c, d] ∧ a.isDigit = true ∧ b.isDigit = true ∧
      c.isDigit = true ∧ d.isDigit = true ∧
      ((o = none ∧ dash4 rest = none ∧
          s = '©' :: ' ' :: a :: b :: c :: d :: rest) ∨
       (∃ e f g h2, o = some [e, f, g, h2] ∧ e.isDigit = true ∧
          f.isDigit = true ∧ g.isDigit = true ∧ h2.isDigit = true ∧
          s = '©' :: ' ' :: a :: b :: c :: d :: '-' :: e :: f :: g :: h2 :: rest)) := by
  rcases s with _ | ⟨c0, _ | ⟨c1, _ | ⟨a, _ | ⟨b, _ | ⟨c, _ | ⟨d, r⟩⟩⟩⟩⟩⟩ <;>
    simp only [tryMatch] at hm
  · exact absurd hm (by simp)
  · exact absurd hm (by simp)
  · exact absurd hm (by simp)
  · exact absurd hm (by simp)
  · exact absurd hm (by simp)
  · exact absurd hm (by simp)
  · by_cases hcond : c0 = '©' ∧ c1 = ' ' ∧ a.isDigit = true ∧
        b.isDigit = true ∧ c.isDigit = true ∧ d.isDigit = true
    · rw [if_pos hcond] at hm
      obtain ⟨hc0, hc1, ha, hb, hcc, hdd⟩ := hcond
      cases hdash : dash4 r with
      | none =>
        rw [hdash] at hm
        obtain ⟨hy1, ho, hrest⟩ : [a, b, c, d] = y1 ∧ none = o ∧ r = rest := by
          have := Option.some.inj hm
          exact ⟨congrArg Prod.fst this, congrArg (fun z => z.2.1) this,
            congrArg (fun z => z.2.2) this⟩
        subst hc0 hc1
        refine ⟨a, b, c, d, hy1.symm, ha, hb, hcc, hdd, Or.inl ?_⟩
        exact ⟨ho.symm, hrest ▸ hdash, by rw [hrest]⟩
      | some p =>
        obtain ⟨y2, r2⟩ := p
        rw [hdash] at hm
        obtain ⟨hy1, ho, hrest⟩ : [a, b, c, d] = y1 ∧ some y2 = o ∧ r2 = rest := by
          have := Option.some.inj hm
          exact ⟨congrArg Prod.fst this, congrArg (fun z => z.2.1) this,
            congrArg (fun z => z.2.2) this⟩
        obtain ⟨e, f, g, h2, hy2, he, hf, hg, hh, hr⟩ := dash4_some_inv hdash
        subst hc0 hc1
        refine ⟨a, b, c, d, hy1.symm, ha, hb, hcc, hdd, Or.inr ?_⟩
        exact ⟨e, f, g, h2, by rw [← ho, hy2], he, hf, hg, hh,
          by rw [hr, hrest]⟩
    · rw [if_neg hcond] at hm
      exact absurd hm (by simp)

theorem tryMatch_some_length {s y1 o rest}
    (hm : tryMatch s = some (y1, o, rest)) : rest.length + 6 ≤ s.length := by
  obtain ⟨a, b, c, d, _, _, _, _, _, hcase⟩ := tryMatch_some_inv hm
  rcases hcase with ⟨_, _, hs⟩ | ⟨e, f, g, h2, _, _, _, _, _, hs⟩
  · rw [hs]
    simp only [List.length_cons]
    omega
  · rw [hs]
    simp only [List.length_cons]
    omega

theorem ucGo_fuel (cur : Int) : ∀ fu fu' s, s.length ≤ fu → s.length ≤ fu' →
    ucGo cur fu s = ucGo cur fu' s := by
  intro fu
  induction fu with
  | zero =>
    intro fu' s hs _
    have : s = [] := List.eq_nil_of_length_eq_zero (Nat.le_zero.mp hs)
    subst this
    cases fu' <;> rfl
  | succ fu ih =>
    intro fu' s hs hs'
    cases s with
    | nil => cases fu' <;> rfl
    | cons c cs =>
      cases fu' with
      | zero => exact absurd hs' (by simp)
      | succ fu' =>
        cases hm : tryMatch (c :: cs) with
        | some t =>
          obtain ⟨y1, o, rest⟩ := t
          have hlen := tryMatch_some_length hm
          simp only [List.length_cons] at hs hs' hlen
          simp only [ucGo, hm]
          congr 1
          exact ih fu' rest (by omega) (by omega)
        | none =>
          simp only [List.length_cons] at hs hs'
          simp only [ucGo, hm]
          congr 1
          exact ih fu' cs (by omega) (by omega)

theorem uc_nil (cur : Int) : updateCopyrightYear cur [] = [] := rfl

theorem uc_pos (cur : Int) {c cs y1 o rest}
    (hm : tryMatch (c :: cs) = some (y1, o, rest)) :
    updateCopyrightYear cur (c :: cs) =
      repl cur y1 o ++ updateCopyrightYear cur rest := by
  have hlen := tryMatch_some_length hm
  simp only [List.length_cons] at hlen
  rw [updateCopyrightYear, updateCopyrightYear]
  simp only [List.length_cons, ucGo, hm]
  congr 1
  exact ucGo_fuel cur _ _ rest (by omega) le_rfl

theorem uc_neg (cur : Int) {c cs} (hm : tryMatch (c :: cs) = none) :
    updateCopyrightYear cur (c :: cs) = c :: updateCopyrightYear cur cs := by
  rw [updateCopyrightYear, updateCopyrightYear]
  simp only [List.length_cons, ucGo, hm]

/-- `startsNDigits k u`: `u` begins with at least `k` ASCII digits. -/
def startsNDigits : Nat → List Char → Bool
  | 0, _ => true
  | _ + 1, [] => false
  | k + 1, c :: cs => c.isDigit && startsNDigits k cs

/-- `u` begins with a space followed by four digits (the tail of the
copyright pattern after `©`). -/
def startsSpace4 : List Char → Bool
  | [] => false
  | c :: r => decide (c = ' ') && startsNDigits 4 r

theorem repl_shape (cur : Int) (y1 : List Char) (o : Option (List Char)) :
    ∃ t, repl cur y1 o = '©' :: ' ' :: t := by
  unfold repl
  by_cases hlt : (digitsVal y1 : Int) < cur
  · rw [if_pos hlt]
    exact ⟨_, rfl⟩
  · rw [if_neg hlt]
    exact ⟨_, rfl⟩

theorem uc_head_of_some (cur : Int) {u y1 o rest}
    (hm : tryMatch u = some (y1, o, rest)) :
    ∃ t, updateCopyrightYear cur u = '©' :: ' ' :: t := by
  cases u with
  | nil => exact absurd hm (by simp [tryMatch])
  | cons c cs =>
    rw [uc_pos cur hm]
    obtain ⟨t, ht⟩ := repl_shape cur y1 o
    exact ⟨t ++ updateCopyrightYear cur rest, by rw [ht]; simp⟩

theorem startsND_stable (cur : Int) : ∀ k u, startsNDigits (k + 1) u = false →
    startsNDigits (k + 1) (updateCopyrightYear cur u) = false := by
  intro k
  induction k with
  | zero =>
    intro u hu
    cases u with
    | nil => exact hu
    | cons c cs =>
      cases hm : tryMatch (c :: cs) with
      | some t =>
        obtain ⟨y1, o, rest⟩ := t
        obtain ⟨t2, ht2⟩ := uc_head_of_some cur hm
        rw [ht2]
        simp [startsNDigits, (by decide : ('©' : Char).isDigit = false)]
      | none =>
        rw [uc_neg cur hm]
        simp only [startsNDigits, Bool.and_true] at hu ⊢
        simpa using hu
  | succ k ih =>
    intro u hu
    cases u with
    | nil => exact hu
    | cons c cs =>
      cases hm : tryMatch (c :: cs) with
      | some t =>
        obtain ⟨y1, o, rest⟩ := t
        obtain ⟨t2, ht2⟩ := uc_head_of_some cur hm
        rw [ht2]
        simp [startsNDigits, (by decide : ('©' : Char).isDigit = false)]
      | none =>
        rw [uc_neg cur hm]
        by_cases hc : c.isDigit = true
        · have hnd : startsNDigits (k + 1) cs = false := by
            cases hnd : startsNDigits (k + 1) cs with
            | false => rfl
            | true =>
              rw [startsNDigits, hc, hnd] at hu
              exact absurd hu (by simp)
          rw [startsNDigits, ih cs hnd]
          simp
        · have hc' : c.isDigit = false := by
            cases hx : c.isDigit with
            | false => rfl
            | true => exact absurd hx hc
          rw [startsNDigits, hc']
          simp

theorem tryMatch_none_of_startsSpace4_false (u : List Char)
    (h : startsSpace4 u = false) : tryMatch ('©' :: u) = none := by
  rcases u with _ | ⟨c1, _ | ⟨a, _ | ⟨b, _ | ⟨c, _ | ⟨d, r⟩⟩⟩⟩⟩
  · rfl
  · rfl
  · rfl
  · rfl
  · rfl
  · simp only [tryMatch]
    rw [if_neg]
    rintro ⟨-, h1, ha, hb, hc2, hd2⟩
    rw [startsSpace4, h1, startsNDigits, ha, startsNDigits, hb, startsNDigits,
      hc2, startsNDigits, hd2, startsNDigits] at h
    simp at h

theorem startsSpace4_false_of_tryMatch_none (u : List Char)
    (h : tryMatch ('©' :: u) = none) : startsSpace4 u = false := by
  rcases u with _ | ⟨c1, _ | ⟨a, _ | ⟨b, _ | ⟨c, _ | ⟨d, r⟩⟩⟩⟩⟩
  · rfl
  · simp [startsSpace4, startsNDigits]
  · simp [startsSpace4, startsNDigits]
  · simp [startsSpace4, startsNDigits]
  · simp [startsSpace4, startsNDigits]
  · by_cases hcond : c1 = ' ' ∧ a.isDigit = true ∧
        b.isDigit = true ∧ c.isDigit = true ∧ d.isDigit = true
    · exfalso
      simp only [tryMatch] at h
      rw [if_pos ⟨trivial, hcond⟩] at h
      cases hd2 : dash4 r with
      | some p =>
        obtain ⟨y2, r2⟩ := p
        rw [hd2] at h
        exact absurd h (by simp)
      | none =>
        rw [hd2] at h
        exact absurd h (by simp)
    · have hcond' : ¬ (c1 = ' ' ∧ a.isDigit = true ∧ b.isDigit = true ∧
          c.isDigit = true ∧ d.isDigit = true) := hcond
      cases hx : startsSpace4 (c1 :: a :: b :: c :: d :: r) with
      | false => rfl
      | true =>
        exfalso
        rw [startsSpace4] at hx
        simp only [startsNDigits, Bool.and_true, Bool.and_eq_true,
          decide_eq_true_eq] at hx
        exact hcond' ⟨hx.1, hx.2.1, hx.2.2.1, hx.2.2.2.1, hx.2.2.2.2⟩

theorem dash4_none_of_startsND_false (u : List Char)
    (h : startsNDigits 4 u = false) : dash4 ('-' :: u) = none := by
  rcases u with _ | ⟨a, _ | ⟨b, _ | ⟨c, _ | ⟨d, r⟩⟩⟩⟩
  · rfl
  · rfl
  · rfl
  · rfl
  · simp only [dash4]
    rw [if_neg]
    rintro ⟨-, ha, hb, hc2, hd2⟩
    rw [startsNDigits, ha, startsNDigits, hb, startsNDigits, hc2,
      startsNDigits, hd2, startsNDigits] at h
    simp at h

theorem startsND_false_of_dash4_none (u : List Char)
    (h : dash4 ('-' :: u) = none) : startsNDigits 4 u = false := by
  rcases u with _ | ⟨a, _ | ⟨b, _ | ⟨c, _ | ⟨d, r⟩⟩⟩⟩
  · rfl
  · simp [startsNDigits]
  · simp [startsNDigits]
  · simp [startsNDigits]
  · by_cases hcond : a.isDigit = true ∧ b.isDigit = true ∧
        c.isDigit = true ∧ d.isDigit = true
    · exfalso
      simp only [dash4] at h
      rw [if_pos ⟨trivial, hcond⟩] at h
      exact absurd h (by simp)
    · have hcond' : ¬ (a.isDigit = true ∧ b.isDigit = true ∧
          c.isDigit = true ∧ d.isDigit = true) := hcond
      cases hx : startsNDigits 4 (a :: b :: c :: d :: r) with
      | false => rfl
      | true =>
        exfalso
        simp only [startsNDigits, Bool.and_true, Bool.and_eq_true] at hx
        exact hcond' ⟨hx.1, hx.2.1, hx.2.2.1, hx.2.2.2⟩

theorem startsSpace4_stable (cur : Int) (u : List Char)
    (h : startsSpace4 u = false) :
    startsSpace4 (updateCopyrightYear cur u) = false := by
  cases u with
  | nil => exact h
  | cons c cs =>
    cases hm : tryMatch (c :: cs) with
    | some t =>
      obtain ⟨y1, o, rest⟩ := t
      obtain ⟨t2, ht2⟩ := uc_head_of_some cur hm
      rw [ht2]
      simp [startsSpace4, (by decide : ¬ ('©' : Char) = ' ')]
    | none =>
      rw [uc_neg cur hm]
      by_cases hc : c = ' '
      · subst hc
        have hnd : startsNDigits 4 cs = false := by
          rw [startsSpace4] at h
          simpa using h
        rw [startsSpace4, startsND_stable cur 3 cs hnd]
        simp
      · simp [startsSpace4, hc]

theorem dash4_stable (cur : Int) (u : List Char) (h : dash4 u = none) :
    dash4 (updateCopyrightYear cur u) = none := by
  cases u with
  | nil => exact h
  | cons c cs =>
    cases hm : tryMatch (c :: cs) with
    | some t =>
      obtain ⟨y1, o, rest⟩ := t
      obtain ⟨t2, ht2⟩ := uc_head_of_some cur hm
      rw [ht2]
      exact dash4_none_head '©' (by decide) _
    | none =>
      rw [uc_neg cur hm]
      by_cases hc : c = '-'
      · subst hc
        exact dash4_none_of_startsND_false _
          (startsND_stable cur 3 cs (startsND_false_of_dash4_none cs h))
      · exact dash4_none_head c hc _

theorem tryMatch_stable (cur : Int) (c : Char) (cs : List Char)
    (hm : tryMatch (c :: cs) = none) :
    tryMatch (c :: updateCopyrightYear cur cs) = none := by
  by_cases hc : c = '©'
  · subst hc
    exact tryMatch_none_of_startsSpace4_false _
      (startsSpace4_stable cur cs (startsSpace4_false_of_tryMatch_none cs hm))
  · exact tryMatch_none_head c hc _

theorem tryMatch_six (a b c d : Char) (u : List Char)
    (ha : a.isDigit = true) (hb : b.isDigit = true) (hc : c.isDigit = true)
    (hd : d.isDigit = true) (hdash : dash4 u = none) :
    tryMatch ('©' :: ' ' :: a :: b :: c :: d :: u) =
      some ([a, b, c, d], none, u) := by
  simp only [tryMatch]
  rw [if_pos ⟨trivial, trivial, ha, hb, hc, hd⟩, hdash]

theorem tryMatch_eleven (a b c d e f g h2 : Char) (u : List Char)
    (ha : a.isDigit = true) (hb : b.isDigit = true) (hc : c.isDigit = true)
    (hd : d.isDigit = true) (he : e.isDigit = true) (hf : f.isDigit = true)
    (hg : g.isDigit = true) (hh : h2.isDigit = true) :
    tryMatch ('©' :: ' ' :: a :: b :: c :: d :: '-' :: e :: f :: g :: h2 :: u) =
      some ([a, b, c, d], some [e, f, g, h2], u) := by
  have hdash : dash4 ('-' :: e :: f :: g :: h2 :: u) = some ([e, f, g, h2], u) := by
    simp only [dash4]
    rw [if_pos ⟨trivial, he, hf, hg, hh⟩]
  simp only [tryMatch]
  rw [if_pos ⟨trivial, trivial, ha, hb, hc, hd⟩, hdash]

theorem intStr_four (cur : Int) (hlo : 1000 ≤ cur) (hhi : cur ≤ 9999) :
    ∃ e f g h2, intStr cur = [e, f, g, h2] ∧ e.isDigit = true ∧
      f.isDigit = true ∧ g.isDigit = true ∧ h2.isDigit = true := by
  have hneg : ¬ cur < 0 := by omega
  rw [intStr, if_neg hneg]
  have hdig : ∀ d2, d2 < 10 → (Nat.digitChar d2).isDigit = true := by decide
  have hn1 : 1000 ≤ cur.toNat := by omega
  have hn2 : cur.toNat ≤ 9999 := by omega
  have h1 : ¬ cur.toNat < 10 := by omega
  have h2x : ¬ cur.toNat / 10 < 10 := by omega
  have h3 : ¬ cur.toNat / 10 / 10 < 10 := by omega
  have h4 : cur.toNat / 10 / 10 / 10 < 10 := by omega
  rw [natDigits_unfold cur.toNat, if_neg h1, natDigits_unfold (cur.toNat / 10),
    if_neg h2x, natDigits_unfold (cur.toNat / 10 / 10), if_neg h3,
    natDigits_unfold (cur.toNat / 10 / 10 / 10), if_pos h4]
  exact ⟨Nat.digitChar (cur.toNat / 10 / 10 / 10),
    Nat.digitChar (cur.toNat / 10 / 10 % 10),
    Nat.digitChar (cur.toNat / 10 % 10), Nat.digitChar (cur.toNat % 10),
    by simp, hdig _ h4, hdig _ (Nat.mod_lt _ (by omega)),
    hdig _ (Nat.mod_lt _ (by omega)), hdig _ (Nat.mod_lt _ (by omega))⟩

/-- `update_copyright_year` is idempotent for a fixed four-digit current
year: rewritten matches re-match to themselves, kept matches are kept. -/
theorem uc_idem (cur : Int) (hlo : 1000 ≤ cur) (hhi : cur ≤ 9999) :
    ∀ s, updateCopyrightYear cur (updateCopyrightYear cur s) =
      updateCopyrightYear cur s := by
  have main : ∀ n s, s.length ≤ n →
      updateCopyrightYear cur (updateCopyrightYear cur s) =
        updateCopyrightYear cur s := by
    intro n
    induction n with
    | zero =>
      intro s hle
      have : s = [] := List.eq_nil_of_length_eq_zero (Nat.le_zero.mp hle)
      subst this
      rw [uc_nil, uc_nil]
    | succ n ih =>
      intro s hle
      cases s with
      | nil => rw [uc_nil, uc_nil]
      | cons c cs =>
        cases hm : tryMatch (c :: cs) with
        | none =>
          rw [uc_neg cur hm, uc_neg cur (tryMatch_stable cur c cs hm)]
          congr 1
          exact ih cs (by simp only [List.length_cons] at hle; omega)
        | some t =>
          obtain ⟨y1, o, rest⟩ := t
          have hlen := tryMatch_some_length hm
          have hrest : rest.length ≤ n := by
            simp only [List.length_cons] at hle hlen
            omega
          have hidem := ih rest hrest
          rw [uc_pos cur hm]
          obtain ⟨a, b, c', d', hy1, ha, hb, hc', hd', hcase⟩ :=
            tryMatch_some_inv hm
          subst hy1
          by_cases hlt : (digitsVal [a, b, c', d'] : Int) < cur
          · obtain ⟨e, f, g, h2, hstr, he, hf, hg, hh⟩ := intStr_four cur hlo hhi
            have hrepl : repl cur [a, b, c', d'] o =
                '©' :: ' ' :: a :: b :: c' :: d' :: '-' :: e :: f :: g :: h2 :: [] := by
              unfold repl
              rw [if_pos hlt, hstr]
              simp
            have hrepl2 : repl cur [a, b, c', d'] (some [e, f, g, h2]) =
                '©' :: ' ' :: a :: b :: c' :: d' :: '-' :: e :: f :: g :: h2 :: [] := by
              unfold repl
              rw [if_pos hlt, hstr]
              simp
            rw [hrepl]
            have hshape :
                ('©' :: ' ' :: a :: b :: c' :: d' :: '-' :: e :: f :: g :: h2 :: []) ++
                  updateCopyrightYear cur rest =
                '©' :: ' ' :: a :: b :: c' :: d' :: '-' :: e :: f :: g :: h2 ::
                  updateCopyrightYear cur rest := by simp
            rw [hshape,
              uc_pos cur (tryMatch_eleven a b c' d' e f g h2
                (updateCopyrightYear cur rest) ha hb hc' hd' he hf hg hh),
              hrepl2, hidem]
            simp
          · rcases hcase with ⟨ho, hdash, hs⟩ | ⟨e, f, g, h2, ho, he, hf, hg, hh, hs⟩
            · have hrepl : repl cur [a, b, c', d'] o =
                  '©' :: ' ' :: a :: b :: c' :: d' :: [] := by
                unfold repl
                rw [if_neg hlt, ho]
                simp
              have hrepl2 : repl cur [a, b, c', d'] none =
                  '©' :: ' ' :: a :: b :: c' :: d' :: [] := by
                unfold repl
                rw [if_neg hlt]
                simp
              rw [hrepl]
              have hshape :
                  ('©' :: ' ' :: a :: b :: c' :: d' :: []) ++
                    updateCopyrightYear cur rest =
                  '©' :: ' ' :: a :: b :: c' :: d' ::
                    updateCopyrightYear cur rest := by simp
              rw [hshape,
                uc_pos cur (tryMatch_six a b c' d' (updateCopyrightYear cur rest)
                  ha hb hc' hd' (dash4_stable cur rest hdash)),
                hrepl2, hidem]
              simp
            · have hrepl : repl cur [a, b, c', d'] o =
                  '©' :: ' ' :: a :: b :: c' :: d' :: '-' :: e :: f :: g :: h2 :: [] := by
                unfold repl
                rw [if_neg hlt, ho]
                simp
              have hrepl2 : repl cur [a, b, c', d'] (some [e, f, g, h2]) =
                  '©' :: ' ' :: a :: b :: c' :: d' :: '-' :: e :: f :: g :: h2 :: [] := by
                unfold repl
                rw [if_neg hlt]
                simp
              rw [hrepl]
              have hshape :
                  ('©' :: ' ' :: a :: b :: c' :: d' :: '-' :: e :: f :: g :: h2 :: []) ++
                    updateCopyrightYear cur rest =
                  '©' :: ' ' :: a :: b :: c' :: d' :: '-' :: e :: f :: g :: h2 ::
                    updateCopyrightYear cur rest := by simp
              rw [hshape,
                uc_pos cur (tryMatch_eleven a b c' d' e f g h2
                  (updateCopyrightYear cur rest) ha hb hc' hd' he hf hg hh),
                hrepl2, hidem]
              simp
  intro s
  exact main s.length s le_rfl

theorem occursIn_nil_pat (s : List Char) : occursIn s [] = true := by
  cases s <;> simp [occursIn, List.isPrefixOf]

theorem applyHeader_nil (c : List Char) : applyHeader [] c = c := by
  rw [applyHeader, if_pos (occursIn_nil_pat c)]

theorem applyHeader_idem (hdr c : List Char) :
    applyHeader hdr (applyHeader hdr c) = applyHeader hdr c := by
  by_cases ho : occursIn c hdr = true
  · have hin : applyHeader hdr c = c := by
      rw [applyHeader, if_pos ho]
    simp only [hin]
  · have h1 : applyHeader hdr c = hdr ++ '\n' :: c := by
      rw [applyHeader, if_neg ho]
    have h2 : occursIn (hdr ++ '\n' :: c) hdr = true :=
      (occursIn_iff_Occ _ _).mpr ⟨[], '\n' :: c, by simp⟩
    rw [h1, applyHeader, if_pos h2]

theorem lookup_map_py (header : List Char)
    (files : List (List Char × List Char)) (n : List Char) :
    List.lookup n (files.map (fun kv =>
        if isPyName kv.1 then (kv.1, applyHeader header kv.2) else kv)) =
      (List.lookup n files).map (fun c =>
        if isPyName n then applyHeader header c else c) := by
  induction files with
  | nil => rfl
  | cons kv t ih =>
    obtain ⟨k, v⟩ := kv
    have hhead : (if isPyName (k, v).1 then
          ((k, v).1, applyHeader header (k, v).2) else (k, v)) =
        (k, if isPyName k then applyHeader header v else v) := by
      by_cases hk : isPyName k
      · simp [hk]
      · simp [hk]
    rw [List.map_cons, hhead]
    by_cases hnk : n = k
    · subst hnk
      simp [List.lookup]
    · have hbeq : (n == k) = false := by simpa using hnk
      simp only [List.lookup, hbeq]
      exact ih

theorem read_write_same (fs : FS) (n c : List Char) :
    (fs.write n c).read n = some c := by
  obtain ⟨files⟩ := fs
  rw [FS.write, FS.read]
  induction files with
  | nil => simp [writePairs, List.lookup]
  | cons kv t ih =>
    obtain ⟨k, v⟩ := kv
    rw [writePairs]
    by_cases hk : k = n
    · subst hk
      simp [List.lookup]
    · have hb : (k == n) = false := by simpa using hk
      have hb' : (n == k) = false := by
        simpa using fun he => hk he.symm
      rw [if_neg (by simp [hb])]
      simp only [List.lookup, hb']
      exact ih

theorem read_write_other (fs : FS) (n m c : List Char) (h : m ≠ n) :
    (fs.write n c).read m = fs.read m := by
  obtain ⟨files⟩ := fs
  rw [FS.write, FS.read, FS.read]
  induction files with
  | nil =>
    have hb : (m == n) = false := by simpa using h
    simp [writePairs, List.lookup, hb]
  | cons kv t ih =>
    obtain ⟨k, v⟩ := kv
    rw [writePairs]
    by_cases hk : k = n
    · subst hk
      have hb : (m == k) = false := by simpa using h
      simp [List.lookup, hb]
    · rw [if_neg (by simpa using hk)]
      by_cases hmk : m = k
      · subst hmk
        simp [List.lookup]
      · have hb : (m == k) = false := by simpa using hmk
        simp only [List.lookup, hb]
        exact ih

theorem isPyName_licenseName : isPyName licenseName = false := by decide

theorem isPyName_intentName : isPyName intentName = false := by decide

theorem licenseName_ne_intentName : licenseName ≠ intentName := by decide

theorem read_headerPass (sec : CfgSection) (fs : FS) (n : List Char) :
    (headerPass sec fs).read n =
      (fs.read n).map (fun c =>
        if isPyName n then applyHeader (sec.script.getD []) c else c) := by
  rw [headerPass, FS.read, FS.read]
  exact lookup_map_py (sec.script.getD []) fs.files n

theorem read_licensePass_other (sec : CfgSection) (cur : Int) (fs : FS)
    (n : List Char) (h : n ≠ licenseName) :
    (licensePass sec cur fs).read n = fs.read n := by
  rw [licensePass]
  cases hl : fs.read licenseName with
  | some content => exact read_write_other fs licenseName n _ h
  | none => exact read_write_other fs licenseName n _ h

theorem read_intentPass_other (sec : CfgSection) (cur : Int) (fs : FS)
    (n : List Char) (h : n ≠ intentName) :
    (intentPass sec cur fs).read n = fs.read n := by
  rw [intentPass]
  cases hi : sec.intent with
  | some icontent =>
    cases hr : fs.read intentName with
    | some content => exact read_write_other fs intentName n _ h
    | none => exact read_write_other fs intentName n _ h
  | none => rfl

theorem intentPass_none (sec : CfgSection) (cur : Int) (fs : FS)
    (h : sec.intent = none) : intentPass sec cur fs = fs := by
  rw [intentPass, h]

/-- Reading a `*.py` file after `apply_files_and_headers`: exactly the
header transformation of its previous content (the LICENSE/INTENT blocks
touch only non-`*.py` names). -/
theorem read_apply_py (sec : CfgSection) (cur : Int) (fs : FS) (n : List Char)
    (hn : isPyName n = true) :
    (applyFilesAndHeaders sec cur fs).read n =
      (fs.read n).map (applyHeader (sec.script.getD [])) := by
  have hnl : n ≠ licenseName := fun he => by
    rw [he, isPyName_licenseName] at hn
    exact absurd hn (by simp)
  have hni : n ≠ intentName := fun he => by
    rw [he, isPyName_intentName] at hn
    exact absurd hn (by simp)
  rw [applyFilesAndHeaders, read_intentPass_other _ _ _ _ hni,
    read_licensePass_other _ _ _ _ hnl, read_headerPass]
  cases fs.read n <;> simp [hn]

theorem intentName_ne_licenseName : intentName ≠ licenseName := by decide

theorem read_apply_intent_none (sec : CfgSection) (cur : Int) (fs : FS)
    (h : sec.intent = none) :
    (applyFilesAndHeaders sec cur fs).read intentName = fs.read intentName := by
  rw [applyFilesAndHeaders, intentPass_none _ _ _ h,
    read_licensePass_other _ _ _ _ intentName_ne_licenseName, read_headerPass]
  cases fs.read intentName <;> simp [isPyName_intentName]

theorem read_apply_license_absent (sec : CfgSection) (cur : Int) (fs : FS)
    (hl : sec.license = none) (hnofile : fs.read licenseName = none) :
    (applyFilesAndHeaders sec cur fs).read licenseName = some [] := by
  rw [applyFilesAndHeaders, read_intentPass_other _ _ _ _ licenseName_ne_intentName]
  have h1 : (headerPass sec fs).read licenseName = none := by
    rw [read_headerPass, hnofile]
    rfl
  rw [licensePass, h1, hl]
  exact read_write_same _ _ _

theorem read_apply_apply_py (sec : CfgSection) (cur : Int) (fs : FS)
    (n : List Char) (hn : isPyName n = true) :
    (applyFilesAndHeaders sec cur (applyFilesAndHeaders sec cur fs)).read n =
      (applyFilesAndHeaders sec cur fs).read n := by
  rw [read_apply_py _ _ _ _ hn, read_apply_py _ _ _ _ hn]
  cases fs.read n with
  | none => rfl
  | some c => simp [applyHeader_idem]

theorem bumpVersion_unparsed (latest : List Char) (bump : String)
    (h : parseVer latest = none) : bumpVersion latest bump = (latest, none) := by
  unfold bumpVersion
  by_cases hv : validBump bump = true
  · rw [if_pos hv, h]
  · rw [if_neg hv]

theorem bumpVersion_invalid (latest : List Char) (bump : String)
    (h1 : bump ≠ "major") (h2 : bump ≠ "minor") (h3 : bump ≠ "patch") :
    bumpVersion latest bump = (latest, none) := by
  have hv : validBump bump = false := by
    rw [validBump]
    simp only [Bool.or_eq_false_iff, beq_eq_false_iff_ne, ne_eq]
    exact ⟨⟨h1, h2⟩, h3⟩
  unfold bumpVersion
  rw [hv]
  rfl

/-- Claim C1: the claim says a run answered `"p"` in a directory missing
LICENSE.md creates LICENSE.md with the configured personal license text.
The code refutes this: `decide_project_type` returns `"personal"`, but
`check_existing_files` compares against `"p"`/`"w"`, so the check is
`False`, `run` mutates nothing and requests no version bump — for every
configuration, year and directory state, including directories missing
LICENSE.md. -/
theorem C1_run_with_p_answer_is_noop :
    ∀ (cfg : HookConfig) (cur : Int) (fs : FS),
      run cfg cur "p" fs = some (fs, false) := by
  intro cfg cur fs
  rfl

/-- Claim C2: the claim says `check_existing_files` on the value produced
by `decide_project_type` returns `True` exactly when the required files
are missing.  The code refutes this: `decide_project_type` produces
`"personal"`/`"work"`, while `check_existing_files` compares with `"p"`
and `"w"`, so it returns `False` for every directory state. -/
theorem C2_check_existing_files_never_true :
    decideProjectType "p" = some "personal" ∧
    decideProjectType "w" = some "work" ∧
    (∀ fs : FS, checkExistingFiles "personal" fs = false) ∧
    (∀ fs : FS, checkExistingFiles "work" fs = false) :=
  ⟨rfl, rfl, fun _ => rfl, fun _ => rfl⟩

/-- Claim C3, counterexample: `"v1.2.3-rc1"` does not match the
`vMAJOR.MINOR.PATCH` pattern as a whole, yet `bump_version` (which uses
`re.match`, a prefix match) bumps it, creating and returning `v1.2.4`
rather than returning the tag unchanged with no new tag. -/
theorem C3_cex_prefix_matched_tag_is_bumped :
    matchesSemVerFull "v1.2.3-rc1".data = false ∧
    bumpVersion "v1.2.3-rc1".data "patch" =
      ("v1.2.4".data, some "v1.2.4".data) :=
  ⟨by decide, by decide⟩

/-- Claim C3, amended: for every latest tag with no `v<digits>.<digits>.
<digits>` prefix (in particular the empty tag) and every bump type,
`bump_version` returns the latest tag unchanged and creates no tag. -/
theorem C3_unparsed_tag_unchanged :
    (∀ (latest : List Char) (bump : String), parseVer latest = none →
      bumpVersion latest bump = (latest, none)) ∧
    (∀ bump : String, bumpVersion [] bump = ([], none)) :=
  ⟨fun latest bump h => bumpVersion_unparsed latest bump h,
   fun bump => bumpVersion_unparsed [] bump rfl⟩

/-- Claim C3, witness: the malformed tag `"va"` is unparsable and is
returned unchanged with no tag created. -/
theorem C3_witness :
    parseVer "va".data = none ∧
    bumpVersion "va".data "patch" = ("va".data, none) :=
  ⟨by decide, C3_unparsed_tag_unchanged.1 _ "patch" (by decide)⟩

/-- Claim C6: on a latest tag of the form `v<digits>.<digits>.<digits>`,
`bump_version` increments exactly the selected component, resets the
lower-order components to zero, creates a tag with the new literal value
and returns it. -/
theorem C6_bump_full_tag :
    ∀ ds1 ds2 ds3 : List Char, ds1 ≠ [] → ds2 ≠ [] → ds3 ≠ [] →
      (∀ c ∈ ds1, c.isDigit = true) → (∀ c ∈ ds2, c.isDigit = true) →
      (∀ c ∈ ds3, c.isDigit = true) →
      bumpVersion (tagOf ds1 ds2 ds3) "patch" =
        (vTag (digitsVal ds1) (digitsVal ds2) (digitsVal ds3 + 1),
          some (vTag (digitsVal ds1) (digitsVal ds2) (digitsVal ds3 + 1))) ∧
      bumpVersion (tagOf ds1 ds2 ds3) "minor" =
        (vTag (digitsVal ds1) (digitsVal ds2 + 1) 0,
          some (vTag (digitsVal ds1) (digitsVal ds2 + 1) 0)) ∧
      bumpVersion (tagOf ds1 ds2 ds3) "major" =
        (vTag (digitsVal ds1 + 1) 0 0, some (vTag (digitsVal ds1 + 1) 0 0)) := by
  intro ds1 ds2 ds3 h1 h2 h3 hd1 hd2 hd3
  have hp := parseVer_tagOf ds1 ds2 ds3 h1 h2 h3 hd1 hd2 hd3
  refine ⟨?_, ?_, ?_⟩
  · unfold bumpVersion
    rw [hp]
    rfl
  · unfold bumpVersion
    rw [hp]
    rfl
  · unfold bumpVersion
    rw [hp]
    rfl

/-- Claim C6, witness: the spec's three examples on `v1.0.0`. -/
theorem C6_witness :
    bumpVersion "v1.0.0".data "patch" = ("v1.0.1".data, some "v1.0.1".data) ∧
    bumpVersion "v1.0.0".data "minor" = ("v1.1.0".data, some "v1.1.0".data) ∧
    bumpVersion "v1.0.0".data "major" = ("v2.0.0".data, some "v2.0.0".data) := by
  have htag : "v1.0.0".data = tagOf "1".data "0".data "0".data := by decide
  have h := C6_bump_full_tag "1".data "0".data "0".data (by decide) (by decide)
    (by decide) (by decide) (by decide) (by decide)
  refine ⟨?_, ?_, ?_⟩
  · rw [htag, h.1]
    decide
  · rw [htag, h.2.1]
    decide
  · rw [htag, h.2.2]
    decide

/-- Claim C9: for every bump type outside `{"major", "minor", "patch"}`
and every latest tag, `bump_version` returns the tag unchanged and
creates no tag. -/
theorem C9_invalid_bump_no_mutation :
    ∀ (latest : List Char) (bump : String), bump ≠ "major" →
      bump ≠ "minor" → bump ≠ "patch" →
      bumpVersion latest bump = (latest, none) :=
  fun latest bump => bumpVersion_invalid latest bump

/-- Claim C9, witness: bump type `"epoch"` on tag `v1.2.3`. -/
theorem C9_witness :
    bumpVersion "v1.2.3".data "epoch" = ("v1.2.3".data, none) :=
  C9_invalid_bump_no_mutation "v1.2.3".data "epoch" (by decide) (by decide)
    (by decide)

/-- Claim C4, counterexample: with the `license` key absent from the
section and LICENSE.md absent from the target directory,
`apply_files_and_headers` still creates LICENSE.md (with the empty default
of `config.get("license", "")`), so absence of the key does not disable
that artifact's handling. -/
theorem C4_cex_license_created_without_key :
    (⟨none, none, none⟩ : CfgSection).license = none ∧
    (FS.mk []).read licenseName = none ∧
    (applyFilesAndHeaders ⟨none, none, none⟩ 2024 (FS.mk [])).read licenseName
      = some [] :=
  ⟨rfl, rfl, by decide⟩

/-- Claim C4, amended: an absent `script` key leaves every `*.py` file
unchanged (the empty default header is contained in every text), and an
absent `intent` key disables INTENT.md handling entirely; but an absent
`license` key does not disable LICENSE.md handling — when the file is
absent it is still created, with empty content. -/
theorem C4_optional_keys :
    (∀ (sec : CfgSection) (cur : Int) (fs : FS) (n : List Char),
      sec.script = none → isPyName n = true →
      (applyFilesAndHeaders sec cur fs).read n = fs.read n) ∧
    (∀ (sec : CfgSection) (cur : Int) (fs : FS), sec.intent = none →
      (applyFilesAndHeaders sec cur fs).read intentName =
        fs.read intentName) ∧
    (∀ (sec : CfgSection) (cur : Int) (fs : FS), sec.license = none →
      fs.read licenseName = none →
      (applyFilesAndHeaders sec cur fs).read licenseName = some []) := by
  refine ⟨?_, ?_, ?_⟩
  · intro sec cur fs n hs hn
    rw [read_apply_py sec cur fs n hn, hs]
    cases fs.read n with
    | none => rfl
    | some c => simp [applyHeader_nil]
  · intro sec cur fs h
    exact read_apply_intent_none sec cur fs h
  · intro sec cur fs hl hn
    exact read_apply_license_absent sec cur fs hl hn

/-- Claim C4, witness: concrete instances of the three amended parts. -/
theorem C4_witness :
    (applyFilesAndHeaders ⟨none, some "LIC".data, some "INT".data⟩ 2024
      (FS.mk [("a.py".data, "code".data)])).read "a.py".data =
      some "code".data ∧
    (applyFilesAndHeaders ⟨some "H".data, some "LIC".data, none⟩ 2024
      (FS.mk [])).read intentName = none ∧
    (applyFilesAndHeaders ⟨none, none, none⟩ 2025 (FS.mk [])).read licenseName
      = some [] := by
  refine ⟨?_, ?_, ?_⟩
  · exact (C4_optional_keys.1 ⟨none, some "LIC".data, some "INT".data⟩ 2024
      (FS.mk [("a.py".data, "code".data)]) "a.py".data rfl (by decide)).trans
      (by decide)
  · exact (C4_optional_keys.2.1 ⟨some "H".data, some "LIC".data, none⟩ 2024
      (FS.mk []) rfl).trans (by decide)
  · exact C4_optional_keys.2.2 ⟨none, none, none⟩ 2025 (FS.mk []) rfl rfl

/-- Claim C8: the header step is described by `applyHeader` (leave the
file alone when the header already occurs in it, otherwise prepend header
plus newline); it is idempotent per file, and applying
`apply_files_and_headers` twice leaves every `*.py` file as after one
application. -/
theorem C8_header_application_idempotent :
    (∀ hdr c : List Char, applyHeader hdr c =
      if occursIn c hdr then c else hdr ++ '\n' :: c) ∧
    (∀ hdr c : List Char,
      applyHeader hdr (applyHeader hdr c) = applyHeader hdr c) ∧
    (∀ (sec : CfgSection) (cur : Int) (fs : FS) (n : List Char),
      isPyName n = true →
      (applyFilesAndHeaders sec cur (applyFilesAndHeaders sec cur fs)).read n
        = (applyFilesAndHeaders sec cur fs).read n) :=
  ⟨fun _ _ => rfl, applyHeader_idem, read_apply_apply_py⟩

/-- Claim C8, witness: a concrete `*.py` file under a concrete header. -/
theorem C8_witness :
    applyHeader "HDR".data (applyHeader "HDR".data "body".data) =
      applyHeader "HDR".data "body".data ∧
    (applyFilesAndHeaders ⟨some "HDR".data, none, none⟩ 2024
        (applyFilesAndHeaders ⟨some "HDR".data, none, none⟩ 2024
          (FS.mk [("a.py".data, "body".data)]))).read "a.py".data =
      (applyFilesAndHeaders ⟨some "HDR".data, none, none⟩ 2024
        (FS.mk [("a.py".data, "body".data)])).read "a.py".data :=
  ⟨C8_header_application_idempotent.2.1 "HDR".data "body".data,
   C8_header_application_idempotent.2.2 ⟨some "HDR".data, none, none⟩ 2024
     (FS.mk [("a.py".data, "body".data)]) "a.py".data (by decide)⟩

/-- Claim C5, counterexample: with the configured name equal to the name
token itself, the value `"NAME_PLACEHOLDER"` still contains a placeholder
token after `replace_placeholders`, so the claim's residual-freedom fails
for some configured names. -/
theorem C5_cex_token_name_leaves_residual :
    noTokD (replacePlaceholders 2024 nameTok
      (CValDict.dcons "k" (CVal.vStr nameTok) CValDict.dnil)) = false := by
  decide

/-- Claim C5, amended: every string value is rewritten by replacing
`YEAR_PLACEHOLDER` with the decimal year and then `NAME_PLACEHOLDER` with
the configured name; and no placeholder token survives in any string leaf
at any nesting depth provided the configured name cannot splice with
either token (it contains neither token, is contained in neither, and
shares no boundary overlap with either — the decidable check `spliceB`;
the decimal year always satisfies this). -/
theorem C5_placeholder_replacement :
    (∀ (i : Int) (n s : List Char), replaceVal i n (CVal.vStr s) =
      CVal.vStr (replaceAll nameTok n (replaceAll yearTok (intStr i) s))) ∧
    (∀ (i : Int) (n : List Char) (cfg : CValDict),
      spliceB nameTok n = false → spliceB yearTok n = false →
      noTokD (replacePlaceholders i n cfg) = true) :=
  ⟨fun _ _ _ => rfl,
   fun i n cfg hn hy => noTokD_replacePairs i n
     (not_spliceP_of_spliceB_eq_false hn)
     (not_spliceP_of_spliceB_eq_false hy) cfg⟩

/-- Claim C5, witness: the default name `"John Doe"` passes the splice
check, and a nested configuration with placeholders in a mapping and in
a sequence is fully resolved. -/
theorem C5_witness :
    spliceB nameTok "John Doe".data = false ∧
    spliceB yearTok "John Doe".data = false ∧
    noTokD (replacePlaceholders 2024 "John Doe".data
      (CValDict.dcons "personal"
        (CVal.vDict (CValDict.dcons "license"
          (CVal.vStr "© YEAR_PLACEHOLDER NAME_PLACEHOLDER".data)
          CValDict.dnil))
        (CValDict.dcons "tags"
          (CVal.vList (CValList.cons (CVal.vStr "by NAME_PLACEHOLDER".data)
            CValList.nil))
          CValDict.dnil))) = true :=
  ⟨by decide, by decide,
   C5_placeholder_replacement.2 2024 "John Doe".data _ (by decide) (by decide)⟩

/-- Claim C7, counterexample: with a three-digit current year (999) the
update is not idempotent — `"© 0099"` becomes `"© 0099-999"`, and a
second application produces `"© 0099-999-999"` because the appended year
is not four digits and re-matches differently. -/
theorem C7_cex_three_digit_year_not_idempotent :
    updateCopyrightYear 999 (updateCopyrightYear 999 "© 0099".data) ≠
      updateCopyrightYear 999 "© 0099".data := by
  decide

/-- Claim C7, amended: the spec's three examples hold; the per-match rule
holds (a match with leading year strictly below the current year is
rewritten to `© YYYY-CURRENT_YEAR`, otherwise reproduced verbatim); and
the update is idempotent for every FOUR-DIGIT current year
(`1000 ≤ year ≤ 9999`) and every text — for years outside that range
idempotence fails (see the counterexample). -/
theorem C7_copyright_update :
    updateCopyrightYear 2023 "© 2020".data = "© 2020-2023".data ∧
    updateCopyrightYear 2023 "© 2020-2023".data = "© 2020-2023".data ∧
    updateCopyrightYear 2024 "© 2020-2023".data = "© 2020-2024".data ∧
    (∀ cur : Int, 1000 ≤ cur → cur ≤ 9999 → ∀ s : List Char,
      updateCopyrightYear cur (updateCopyrightYear cur s) =
        updateCopyrightYear cur s) ∧
    (∀ (cur : Int) (c : Char) (cs y1 : List Char) (o : Option (List Char))
        (rest : List Char), tryMatch (c :: cs) = some (y1, o, rest) →
      updateCopyrightYear cur (c :: cs) =
        repl cur y1 o ++ updateCopyrightYear cur rest) ∧
    (∀ (cur : Int) (y1 : List Char) (o : Option (List Char)),
      (digitsVal y1 : Int) < cur →
      repl cur y1 o = '©' :: ' ' :: (y1 ++ '-' :: intStr cur)) ∧
    (∀ (cur : Int) (y1 y2 : List Char), ¬ (digitsVal y1 : Int) < cur →
      repl cur y1 (some y2) = '©' :: ' ' :: (y1 ++ '-' :: y2) ∧
      repl cur y1 none = '©' :: ' ' :: y1) := by
  refine ⟨by decide, by decide, by decide,
    fun cur hlo hhi s => uc_idem cur hlo hhi s,
    fun cur c cs y1 o rest hm => uc_pos cur hm, ?_, ?_⟩
  · intro cur y1 o hlt
    unfold repl
    rw [if_pos hlt]
  · intro cur y1 y2 hge
    constructor
    · unfold repl
      rw [if_neg hge]
    · unfold repl
      rw [if_neg hge]
      simp

/-- Claim C7, witness: idempotence at current year 2023 on a text with a
rewritten and a kept match, and the rewrite rule at a concrete match. -/
theorem C7_witness :
    updateCopyrightYear 2023 (updateCopyrightYear 2023
        "© 1999 and © 2030".data) =
      updateCopyrightYear 2023 "© 1999 and © 2030".data ∧
    repl 2023 "1999".data none = "© 1999-2023".data :=
  ⟨C7_copyright_update.2.2.2.1 2023 (by decide) (by decide) _,
   (C7_copyright_update.2.2.2.2.2.1 2023 "1999".data none (by decide)).trans
     (by decide)⟩

/-- Claim C10: `replace_placeholders` preserves the whole structure of the
configuration — collapsing every string leaf to a canonical marker yields
identical trees before and after, which forces identical key sets in
order at every level, identical sequence lengths and order, and identical
non-string leaves (integers, booleans, dates are returned unchanged). -/
theorem C10_structure_preserved :
    (∀ (i : Int) (n : List Char) (cfg : CValDict),
      stripD (replacePlaceholders i n cfg) = stripD cfg) ∧
    (∀ (i k : Int) (n : List Char),
      replaceVal i n (CVal.vInt k) = CVal.vInt k) ∧
    (∀ (i : Int) (n : List Char) (b : Bool),
      replaceVal i n (CVal.vBool b) = CVal.vBool b) ∧
    (∀ (i : Int) (n : List Char) (y m d : Nat),
      replaceVal i n (CVal.vDate y m d) = CVal.vDate y m d) :=
  ⟨fun i n cfg => stripD_replacePairs i n cfg, fun _ _ _ => rfl,
   fun _ _ _ => rfl, fun _ _ _ _ _ => rfl⟩
